import Mathlib

/-!
Verification of the dialect-adaptation layer of the `gf` database drivers
(`contrib/drivers/clickhouse/clickhouse.go` and `contrib/drivers/pgsql/pgsql.go`).

SQL text is modelled as `List Char`.  The Go regular expressions used by the
drivers are fixed, concrete patterns; each one is embedded as a recursive
matcher on `List Char` that implements the leftmost-first, lazy/greedy
backtracking semantics of Go's `regexp` package for that concrete pattern.
Machine strings, maps and slices are modelled with lists; `error` results are
modelled with `Option`/`Except`.
-/

/-- Go regexp's `\w` character class: `[0-9A-Za-z_]`. -/
def isWordChar (c : Char) : Bool :=
  ('0' ≤ c && c ≤ '9') || ('a' ≤ c && c ≤ 'z') || ('A' ≤ c && c ≤ 'Z') || c = '_'

/-- Go regexp's `\d` character class: `[0-9]`. -/
def isDigitChar (c : Char) : Bool :=
  '0' ≤ c && c ≤ '9'

/-- Go regexp's `\s` character class: `[\t\n\f\r ]`. -/
def isPatSpace (c : Char) : Bool :=
  c = ' ' || c = '\t' || c = '\n' || c = '\r' || c = '\x0c'

/-- The whitespace trimmed by Go's `strings.TrimSpace` (ASCII part). -/
def isTrimSpace (c : Char) : Bool :=
  isPatSpace c || c = '\x0b'

/-- ASCII lower-casing, as used by Go's case-insensitive `(?i)` matching on
ASCII patterns (and `strings.ToUpper` on ASCII match results). -/
def lowerAscii (c : Char) : Char :=
  if 'A' ≤ c && c ≤ 'Z' then Char.ofNat (c.toNat + 32) else c

/-- Strip a literal, case-sensitive prefix; `some rest` on success. -/
def dropLit : List Char → List Char → Option (List Char)
  | [], s => some s
  | _ :: _, [] => none
  | p :: ps, c :: cs => if c = p then dropLit ps cs else none

/-- Strip a literal prefix up to ASCII case (Go `(?i)` literal matching). -/
def dropCI : List Char → List Char → Option (List Char)
  | [], s => some s
  | _ :: _, [] => none
  | p :: ps, c :: cs => if lowerAscii c = lowerAscii p then dropCI ps cs else none

/-- `strings.Contains`: does `key` occur as a contiguous substring? -/
def containsLit (key : List Char) : List Char → Bool
  | [] => (dropLit key []).isSome
  | c :: t => (dropLit key (c :: t)).isSome || containsLit key t

/-- Case-insensitive substring occurrence, for `(?i)` patterns without `^`. -/
def containsCI (key : List Char) : List Char → Bool
  | [] => (dropCI key []).isSome
  | c :: t => (dropCI key (c :: t)).isSome || containsCI key t

/-- `strings.TrimSpace` (ASCII whitespace model): drop leading and trailing
whitespace. -/
def trimSp (s : List Char) : List Char :=
  ((s.dropWhile isTrimSpace).reverse.dropWhile isTrimSpace).reverse

/-- The placeholder replacement both drivers perform first:
`gregex.ReplaceStringFunc` over pattern `\?` with an incrementing counter,
replacing the `(i+1)`-st occurrence of `'?'` (counting from `i` already seen)
by `$i+1` rendered in decimal.  Source: clickhouse.go lines 224-228 and
pgsql.go lines 209-214. -/
def subst : List Char → Nat → List Char
  | [], _ => []
  | c :: t, i =>
    if c = '?' then '$' :: (Nat.toDigits 10 (i + 1) ++ subst t (i + 1))
    else c :: subst t i

/-- Join segments with a `'?'` placeholder between consecutive segments: a
canonical statement with `segs.length - 1` placeholders whose `'?'`-free
segments are `segs`. -/
def joinQ : List (List Char) → List Char
  | [] => []
  | [s] => s
  | s :: rest => s ++ '?' :: joinQ rest

/-- The specification-level description of placeholder translation: the i-th
placeholder, scanning left to right, becomes the marker `$i` (1-based). -/
def numberMarkers : List (List Char) → Nat → List Char
  | [], _ => []
  | [s], _ => s
  | s :: rest, i => s ++ '$' :: (Nat.toDigits 10 i ++ numberMarkers rest (i + 1))

/-! ## Generic scanner for regex replacement

Go's `ReplaceAllStringFunc`/`ReplaceStringFuncMatch` replace every
non-overlapping leftmost match, scanning left to right and resuming after each
match.  `reScan` implements that scan; a fuel of `s.length` always suffices
because every pattern used by the drivers starts with a non-empty literal and
so consumes at least one character per match, bounding the number of scan
steps by the text length. -/

/-- Leftmost match of a pattern: the unmatched text before the match, the
match payload, and the text after the match. -/
def reFind {α : Type} (m : List Char → Option (α × List Char)) :
    List Char → Option (List Char × α × List Char)
  | [] => none
  | c :: t =>
    match m (c :: t) with
    | some (x, rest) => some ([], x, rest)
    | none =>
      match reFind m t with
      | some (p, x, rest) => some (c :: p, x, rest)
      | none => none

/-- Fuelled left-to-right scan replacing every leftmost match. -/
def reScan {α : Type} (m : List Char → Option (α × List Char))
    (repl : α → List Char) : Nat → List Char → List Char
  | 0, s => s
  | _ + 1, [] => []
  | f + 1, c :: t =>
    match m (c :: t) with
    | some (x, rest) => repl x ++ reScan m repl f rest
    | none => c :: reScan m repl f t

/-- Replace every non-overlapping leftmost match of pattern `m` by `repl`. -/
def reAll {α : Type} (m : List Char → Option (α × List Char))
    (repl : α → List Char) (s : List Char) : List Char :=
  reScan m repl s.length s

/-! ## The ClickHouse driver's statement rewriting (clickhouse.go DoFilter)

The driver uses three fixed Go regular expressions:
`(?i)UPDATE[\s]+?(\w+[\.]?\w+)[\s]+?SET`,
`(?i)DELETE[\s]+?FROM[\s]+?(\w+[\.]?\w+)` and `(?i)^UPDATE|DELETE`.  Each is
embedded as a matcher implementing Go's leftmost-first lazy/greedy
backtracking for that concrete pattern; derivations are noted inline. -/

def updKey : List Char := "update".toList

def setKey : List Char := "set".toList

def delKey : List Char := "delete".toList

def fromKey : List Char := "from".toList

/-- The tail of `[\s]+?KEY` after its first whitespace: lazily extend the
whitespace, trying the literal `KEY` (case-insensitively) at each step. -/
def wsGo (key : List Char) : List Char → Option (List Char)
  | [] => dropCI key []
  | c :: t =>
    match dropCI key (c :: t) with
    | some r => some r
    | none => if isPatSpace c then wsGo key t else none

/-- `[\s]+?KEY`: at least one whitespace character, then the literal `KEY`
after as few further whitespace characters as possible. -/
def wsThen (key : List Char) : List Char → Option (List Char)
  | [] => none
  | c :: t => if isPatSpace c then wsGo key t else none

/-- The tail of `[\s]+?(\w…` after its first whitespace: lazily extend the
whitespace until a word character starts the group (any other character makes
the whole match fail, since neither `\s` nor `\w` accepts it). -/
def wsToWord : List Char → Option (List Char)
  | [] => none
  | c :: t =>
    if isWordChar c then some (c :: t)
    else if isPatSpace c then wsToWord t else none

/-- `[\s]+?(\w…`: at least one whitespace, then the suffix starting at the
first word character. -/
def wsThenWord : List Char → Option (List Char)
  | [] => none
  | c :: t => if isPatSpace c then wsToWord t else none

/-- `(\w+[\.]?\w+)[\s]+?SET` with Go's backtracking, which resolves to: take
the maximal word run `w1`; if a `'.'` and a non-empty word run `w2` follow,
the capture is `w1.w2` (no shorter split of the runs can be followed by the
required whitespace); otherwise the capture is `w1` itself, needing at least
two characters so both `\w+` groups are non-empty.  Returns the capture and
the suffix after `SET`. -/
def tableThenSet (s : List Char) : Option (List Char × List Char) :=
  let w1 := s.takeWhile isWordChar
  let r1 := s.dropWhile isWordChar
  if w1.isEmpty then none
  else
    match r1 with
    | '.' :: r2 =>
      let w2 := r2.takeWhile isWordChar
      let r3 := r2.dropWhile isWordChar
      if w2.isEmpty then none
      else
        match wsThen setKey r3 with
        | some tail => some (w1 ++ '.' :: w2, tail)
        | none => none
    | _ =>
      if 2 ≤ w1.length then
        match wsThen setKey r1 with
        | some tail => some (w1, tail)
        | none => none
      else none

/-- `(\w+[\.]?\w+)` at the end of the DELETE pattern, with Go's greedy
backtracking: maximal word run `w1`; if a `'.'` and a non-empty word run `w2`
follow, the capture is `w1.w2`; otherwise the capture is `w1` when it has at
least two characters (the optional dot matches nothing and `\w+\w+` splits
`w1`).  Returns the capture and the rest of the text. -/
def tableEnd (s : List Char) : Option (List Char × List Char) :=
  let w1 := s.takeWhile isWordChar
  let r1 := s.dropWhile isWordChar
  if w1.isEmpty then none
  else
    match r1 with
    | '.' :: r2 =>
      let w2 := r2.takeWhile isWordChar
      if w2.isEmpty then
        if 2 ≤ w1.length then some (w1, r1) else none
      else some (w1 ++ '.' :: w2, r2.dropWhile isWordChar)
    | _ => if 2 ≤ w1.length then some (w1, r1) else none

/-- One match attempt of `(?i)UPDATE[\s]+?(\w+[\.]?\w+)[\s]+?SET` at the head
of the text: the captured table reference and the suffix after `SET`. -/
def updMatchAt (s : List Char) : Option (List Char × List Char) :=
  match dropCI updKey s with
  | none => none
  | some s1 =>
    match wsThenWord s1 with
    | none => none
    | some s2 => tableThenSet s2

/-- One match attempt of `(?i)DELETE[\s]+?FROM[\s]+?(\w+[\.]?\w+)` at the head
of the text: the captured table reference and the suffix after it. -/
def delMatchAt (s : List Char) : Option (List Char × List Char) :=
  match dropCI delKey s with
  | none => none
  | some s1 =>
    match wsThen fromKey s1 with
    | none => none
    | some s2 =>
      match wsThenWord s2 with
      | none => none
      | some s3 => tableEnd s3

/-- Replacement for an UPDATE match: `fmt.Sprintf("ALTER TABLE %s UPDATE", s[1])`. -/
def updRepl (table : List Char) : List Char :=
  "ALTER TABLE ".toList ++ table ++ " UPDATE".toList

/-- Replacement for a DELETE match: `fmt.Sprintf("ALTER TABLE %s DELETE", s[1])`. -/
def delRepl (table : List Char) : List Char :=
  "ALTER TABLE ".toList ++ table ++ " DELETE".toList

inductive StmtKind
  | update
  | delete
deriving DecidableEq

/-- The statement classifier `(?i)^UPDATE|DELETE` applied by `MatchString` with
leftmost-first alternation: the anchored `^UPDATE` alternative can only match
at the start, so the match (uppercased by the driver's `switch`) is `UPDATE`
when the text starts with it case-insensitively, else `DELETE` when `DELETE`
occurs anywhere, else none. -/
def classify (s : List Char) : Option StmtKind :=
  if (dropCI updKey s).isSome then some .update
  else if containsCI delKey s then some .delete
  else none

/-- The ClickHouse context flag `NeedParsedSql`: `injectNeedParsedSql` leaves a
set flag alone and sets an unset one, so the flag is always set afterwards. -/
def injectNeedParsedSql (_flag : Bool) : Bool := true

/-- Reading the `NeedParsedSql` flag from the context. -/
def getNeedParsedSqlFromCtx (flag : Bool) : Bool := flag

/-- `Driver.DoFilter` of the ClickHouse driver (clickhouse.go lines 217-276).
With no bound arguments the statement passes through untouched.  Otherwise
every `'?'` is replaced by `$i` (1-based, left to right); then, only when the
context flag is set and the classifier recognises the substituted statement
(after `strings.TrimSpace`) as UPDATE or DELETE, the corresponding
`ALTER TABLE` rewrite replaces every leftmost pattern match.  The error result
is always `none`: the only error sources in the Go code are regex-engine
failures, impossible for these fixed patterns. -/
def chDoFilter {α : Type} (needParsed : Bool) (sql : List Char) (args : List α) :
    List Char × List α × Option (List Char) :=
  if args.isEmpty then (sql, args, none)
  else
    let numbered := subst sql 0
    if needParsed = false then (numbered, args, none)
    else
      match classify (trimSp numbered) with
      | some .update => (reAll updMatchAt updRepl numbered, args, none)
      | some .delete => (reAll delMatchAt delRepl numbered, args, none)
      | none => (numbered, args, none)

/-! ## The PostgreSQL driver's statement rewriting (pgsql.go DoFilter) -/

def jsonbKey : List Char := "::jsonb".toList

/-- One match attempt of `(::jsonb([^\w\d]*)\$\d)` at the head of the text.
After the literal `::jsonb`, the greedy run of non-word characters must be
followed by `$` and one digit; since `'$'` itself is a non-word character and
a digit is a word character, backtracking resolves to: the maximal non-word
run must end in `'$'` and the character ending it must be a digit.  Returns
the separator (the run without its final `'$'`) and the suffix after the one
digit. -/
def jsonbMatchAt (s : List Char) : Option (List Char × List Char) :=
  match dropLit jsonbKey s with
  | none => none
  | some s1 =>
    let r := s1.takeWhile (fun c => !isWordChar c)
    match s1.dropWhile (fun c => !isWordChar c) with
    | d :: rest =>
      if isDigitChar d then
        match r.reverse with
        | '$' :: sepRev => some (sepRev.reverse, rest)
        | _ => none
      else none
    | [] => none

/-- Replacement for a jsonb match: `fmt.Sprintf("::jsonb%s?", match[2])`. -/
def jsonbRepl (sep : List Char) : List Char :=
  jsonbKey ++ sep ++ ['?']

def limitKey : List Char := " LIMIT ".toList

/-- One match attempt of ` LIMIT (\d+),\s*(\d+)` (case-sensitive) at the head
of the text: the two captured digit runs and the suffix after the match. -/
def limitMatchAt (s : List Char) : Option ((List Char × List Char) × List Char) :=
  match dropLit limitKey s with
  | none => none
  | some s1 =>
    let a := s1.takeWhile isDigitChar
    if a.isEmpty then none
    else
      match s1.dropWhile isDigitChar with
      | ',' :: r2 =>
        let r3 := r2.dropWhile isPatSpace
        let b := r3.takeWhile isDigitChar
        if b.isEmpty then none
        else some ((a, b), r3.dropWhile isDigitChar)
      | _ => none

/-- Replacement for a LIMIT match: the template ` LIMIT $2 OFFSET $1`. -/
def limitRepl (ab : List Char × List Char) : List Char :=
  " LIMIT ".toList ++ ab.2 ++ " OFFSET ".toList ++ ab.1

/-- The SQL-text part of the PostgreSQL `Driver.DoFilter` (pgsql.go lines
208-224): number the placeholders, restore jsonb `?` operators, rewrite
`LIMIT a,b` pagination. -/
def pgDoFilterSql (sql : List Char) : List Char :=
  reAll limitMatchAt limitRepl (reAll jsonbMatchAt jsonbRepl (subst sql 0))

/-- Modelled from the spec: the ORM core's `DoFilter` hook (`gdb.Core.DoFilter`
is not among the repository files shown).  The spec attributes every rewrite
to the drivers themselves, so the core hook passes statement and arguments
through unchanged. -/
def coreDoFilter {α : Type} (sql : List Char) (args : List α) :
    List Char × List α × Option (List Char) :=
  (sql, args, none)

/-- `Driver.DoFilter` of the PostgreSQL driver: rewrites the SQL text and
forwards statement and arguments through the core hook. -/
def pgDoFilter {α : Type} (sql : List Char) (args : List α) :
    List Char × List α × Option (List Char) :=
  coreDoFilter (pgDoFilterSql sql) args

/-! ## The ClickHouse driver's emulated batch insert (clickhouse.go DoInsert)

The driver's interaction with the transaction and statement objects is
modelled as an event trace; the outcomes of `Begin`, `Prepare` and each row's
`ExecContext` are supplied by an oracle.  A row is an association list of
field name and value (Go's map iteration order is fixed to list order here;
the claims do not depend on the key order). -/

inductive CHEvent
  | beginTx
  | prepare (table : List Char) (keys : List (List Char))
  | exec (row : Nat) (params : List (Option Nat))
  | commit
  | rollback
deriving DecidableEq

structure CHInsertOracle where
  beginErr : Option (List Char)
  prepareErr : Option (List Char)
  execErr : Nat → Option (List Char)

/-- The field names, read from the first row of the list (`for k := range list[0]`). -/
def chKeys (rows : List (List (List Char × Nat))) : List (List Char) :=
  (rows.headD []).map Prod.fst

/-- Go map lookup `list[i][k]`; a missing key yields the nil interface value. -/
def chLookup (k : List Char) : List (List Char × Nat) → Option Nat
  | [] => none
  | (k', v) :: t => if k' = k then some v else chLookup k t

/-- The parameter vector committed for one row: the row's value for each key. -/
def chParams (keys : List (List Char)) (row : List (List Char × Nat)) :
    List (Option Nat) :=
  keys.map (fun k => chLookup k row)

/-- The row-execution loop of `DoInsert`: execute the single prepared
statement once per row, in list order, stopping at the first failure. -/
def chExecLoop (o : CHInsertOracle) (keys : List (List Char)) :
    List (List (List Char × Nat)) → Nat → List CHEvent × Option (List Char)
  | [], _ => ([], none)
  | row :: rest, i =>
    match o.execErr i with
    | some e => ([.exec i (chParams keys row)], some e)
    | none =>
      let p := chExecLoop o keys rest (i + 1)
      (.exec i (chParams keys row) :: p.1, p.2)

/-- `Driver.DoInsert` of the ClickHouse driver (clickhouse.go lines 284-338):
begin a transaction, prepare one insert statement, execute it per row, and
(via `defer`) commit when no error occurred, roll back otherwise. -/
def chDoInsert (o : CHInsertOracle) (table : List Char)
    (rows : List (List (List Char × Nat))) : List CHEvent × Option (List Char) :=
  match o.beginErr with
  | some e => ([.beginTx], some e)
  | none =>
    match o.prepareErr with
    | some e => ([.beginTx, .prepare table (chKeys rows), .rollback], some e)
    | none =>
      let p := chExecLoop o (chKeys rows) rows 0
      (.beginTx :: .prepare table (chKeys rows) ::
        (p.1 ++ [match p.2 with | none => .commit | some _ => .rollback]), p.2)

/-! ## The ClickHouse driver's unsupported operations -/

inductive CHUnsupported
  | insertIgnore
  | insertGetId
  | replaceOp
  | beginOp
  | transactionOp
deriving DecidableEq

/-- `Driver.InsertIgnore`: returns the fixed `errUnsupportedInsertIgnore`
without touching the execution layer (empty event trace). -/
def chInsertIgnore {α : Type} (_table : List Char) (_data : α)
    (_batch : List Nat) : List CHEvent × Except CHUnsupported Unit :=
  ([], .error .insertIgnore)

/-- `Driver.InsertAndGetId`: the fixed `errUnsupportedInsertGetId`, no I/O. -/
def chInsertAndGetId {α : Type} (_table : List Char) (_data : α)
    (_batch : List Nat) : List CHEvent × Except CHUnsupported Unit :=
  ([], .error .insertGetId)

/-- `Driver.Replace`: the fixed `errUnsupportedReplace`, no I/O. -/
def chReplace {α : Type} (_table : List Char) (_data : α)
    (_batch : List Nat) : List CHEvent × Except CHUnsupported Unit :=
  ([], .error .replaceOp)

/-- `Driver.Begin`: the fixed `errUnsupportedBegin`, no I/O. -/
def chBegin : List CHEvent × Except CHUnsupported Unit :=
  ([], .error .beginOp)

/-- `Driver.Transaction`: the fixed `errUnsupportedTransaction`, no I/O; the
callback `f` is never invoked. -/
def chTransaction {α : Type} (_f : α) : List CHEvent × Except CHUnsupported Unit :=
  ([], .error .transactionOp)

/-! ## The ClickHouse driver's parameter conversion (ConvertValueForField)

`time.Time` values are modelled by a `Nat` tick count whose `IsZero` is
`= 0`; `gtime.Time` wraps such a time; pointers are `Option`; decimals are
opaque `Int`; the `driver.Valuer` fallback is a supplied result. -/

inductive CHFieldValue
  | timeV (t : Nat)
  | timePtr (t : Option Nat)
  | uuidV (u : Nat)
  | gtimeV (t : Nat)
  | gtimePtr (t : Option Nat)
  | decimalV (d : Int)
  | decimalPtr (d : Option Int)
  | plainV (v : Nat)
  | valuerV (res : Except (List Char) Nat)

inductive CHBound
  | timeB (t : Nat)
  | uuidB (u : Nat)
  | decimalB (d : Int)
  | rawB (v : Nat)
  | valuerB (v : Nat)
deriving DecidableEq

/-- `Driver.ConvertValueForField` (clickhouse.go lines 341-405).  `none`
models the nil interface value, which the driver binds as SQL `null`.  Note
the `*gtime.Time` case of the source: a non-nil pointer returns the wrapped
`time.Time` before any zero check is reached. -/
def convertValueForField : CHFieldValue → Except (List Char) (Option CHBound)
  | .timeV t => if t = 0 then .ok none else .ok (some (.timeB t))
  | .uuidV u => .ok (some (.uuidB u))
  | .timePtr none => .ok none
  | .timePtr (some t) => if t = 0 then .ok none else .ok (some (.timeB t))
  | .gtimeV t => if t = 0 then .ok none else .ok (some (.timeB t))
  | .gtimePtr (some t) => .ok (some (.timeB t))
  | .gtimePtr none => .ok none
  | .decimalV d => .ok (some (.decimalB d))
  | .decimalPtr (some d) => .ok (some (.decimalB d))
  | .decimalPtr none => .ok none
  | .plainV v => .ok (some (.rawB v))
  | .valuerV (.ok v) => .ok (some (.valuerB v))
  | .valuerV (.error e) => .error e

/-! ## The PostgreSQL driver's DoExec / DoInsert generated-key emulation -/

structure PgTableField where
  name : List Char
  ftype : List Char
deriving DecidableEq

structure PgResult where
  affected : Int
  lastInsertId : Int
  lastInsertIdError : Option (List Char)
deriving DecidableEq

inductive PgDoExecOut
  | coreDelegated (sql : List Char)
  | executed (sql : List Char) (res : PgResult)
deriving DecidableEq

/-- Record lookup `record[key]`; `none` models both an absent key and a nil
value, the two cases `out.Records[affected-1][primaryKey] != nil` rejects. -/
def pgRecordGet (k : List Char) : List (List Char × Option Int) → Option Int
  | [] => none
  | (k', v) :: t => if k' = k then v else pgRecordGet k t

/-- The message of the driver's "LastInsertId is not supported" error. -/
def notSupportedMsg (ty : List Char) : List Char :=
  "LastInsertId is not supported by primary key type: ".toList ++ ty

/-- Modelled from the spec: `Core.FormatSqlBeforeExecuting` (not among the
repository files shown).  The spec assigns all statement rewriting to the
drivers, so the core formatting hook passes the statement through. -/
def formatSqlBeforeExecuting (sql : List Char) : List Char := sql

/-- `Driver.DoExec` of the PostgreSQL driver (pgsql.go lines 390-484).  `pk`
is the primary-key field placed in the context by `DoInsert` (absent when the
insert path did not run); `commitResult` is the oracle for `DoCommit`,
returning the rows of the `RETURNING` query.  When no primary key is known,
or the field name is empty, or the statement is not an `INSERT INTO`, the
call delegates to the core implementation. -/
def pgDoExec (pk : Option PgTableField) (sql : List Char)
    (commitResult : Except (List Char) (List (List (List Char × Option Int)))) :
    Except (List Char) PgDoExecOut :=
  match pk with
  | none => .ok (.coreDelegated sql)
  | some pkField =>
    if !pkField.name.isEmpty && containsLit "INSERT INTO".toList sql then
      let sqlR := sql ++ " RETURNING ".toList ++ pkField.name
      let filtered := pgDoFilterSql (formatSqlBeforeExecuting sqlR)
      match commitResult with
      | .error e => .error e
      | .ok records =>
        let affected : Int := records.length
        if 0 < records.length then
          if !containsLit "int".toList pkField.ftype then
            .ok (.executed filtered
              ⟨affected, 0, some (notSupportedMsg pkField.ftype)⟩)
          else
            match pgRecordGet pkField.name (records.getLastD []) with
            | some v => .ok (.executed filtered ⟨affected, v, none⟩)
            | none => .ok (.executed filtered ⟨0, 0, none⟩)
        else .ok (.executed filtered ⟨0, 0, none⟩)
    else .ok (.coreDelegated sql)

/-! ## The ClickHouse driver's TableFields introspection -/

structure CHColRow where
  name : List Char
  position : Int
  defaultExpression : List Char
  comment : List Char
  ftype : List Char
deriving DecidableEq

structure CHTableField where
  index : Int
  name : List Char
  defaultExpression : List Char
  comment : List Char
  ftype : List Char
  nullable : Bool
deriving DecidableEq

/-- The `^Nullable\((.*?)\)` unwrapping of a ClickHouse column type: when the
type starts with `Nullable(` and a `')'` follows, the inner type is the text
up to the first `')'` (the lazy group also cannot cross a newline). -/
def chUnwrapNullable (ty : List Char) : Bool × List Char :=
  match dropLit "Nullable(".toList ty with
  | none => (false, ty)
  | some r =>
    let inner := r.takeWhile (fun c => c ≠ ')')
    if (r.dropWhile (fun c => c ≠ ')')).isEmpty || inner.elem '\n' then (false, ty)
    else (true, inner)

/-- One `FieldDescriptor` from one catalog row, given the first returned
row's ordinal position: the source subtracts one from every position when
`result[0]["position"].Int() != 0`. -/
def chFieldOfRow (firstPos : Int) (r : CHColRow) : CHTableField :=
  let u := chUnwrapNullable r.ftype
  ⟨if firstPos ≠ 0 then r.position - 1 else r.position,
    r.name, r.defaultExpression, r.comment, u.2, u.1⟩

/-- `Driver.TableFields` of the ClickHouse driver (clickhouse.go lines
140-187) over the rows returned by the catalog query, as the sequence of map
insertions it performs (one per row, in row order). -/
def chTableFields (rows : List CHColRow) : List (List Char × CHTableField) :=
  match rows with
  | [] => []
  | r0 :: _ => rows.map (fun r => (r.name, chFieldOfRow r0.position r))

theorem subst_nil (i : Nat) : subst [] i = [] := rfl

theorem subst_cons_q (t : List Char) (i : Nat) :
    subst ('?' :: t) i = '$' :: (Nat.toDigits 10 (i + 1) ++ subst t (i + 1)) := by
  simp [subst]

theorem subst_append_noQ (a b : List Char) (i : Nat) (h : '?' ∉ a) :
    subst (a ++ b) i = a ++ subst b i := by
  induction a with
  | nil => rfl
  | cons c t ih =>
    simp only [List.mem_cons, not_or] at h
    simp only [List.cons_append, subst, if_neg (by simpa using Ne.symm h.1),
      List.append_eq]
    rw [ih h.2]

theorem subst_noQ (a : List Char) (i : Nat) (h : '?' ∉ a) : subst a i = a := by
  have := subst_append_noQ a [] i h
  simpa [subst_nil] using this

theorem subst_joinQ (segs : List (List Char)) (i : Nat)
    (h : ∀ s ∈ segs, '?' ∉ s) :
    subst (joinQ segs) i = numberMarkers segs (i + 1) := by
  induction segs generalizing i with
  | nil => rfl
  | cons s rest ih =>
    cases rest with
    | nil => simpa [joinQ, numberMarkers] using subst_noQ s i (h s (by simp))
    | cons s' rest' =>
      have hs : '?' ∉ s := h s (by simp)
      simp only [joinQ, numberMarkers]
      rw [subst_append_noQ _ _ _ hs, subst_cons_q,
        ih (i + 1) (by intro x hx; exact h x (by simp [hx]))]

/-! ## Generic facts about the scanner -/

theorem reFind_none_scan {α : Type} (m : List Char → Option (α × List Char))
    (repl : α → List Char) (f : Nat) (s : List Char) (h : reFind m s = none) :
    reScan m repl f s = s := by
  induction f generalizing s with
  | zero => rfl
  | succ f ih =>
    cases s with
    | nil => rfl
    | cons c t =>
      cases hm : m (c :: t) with
      | some q => simp [reFind, hm] at h
      | none =>
        cases hf : reFind m t with
        | some q => simp [reFind, hm, hf] at h
        | none => simp [reScan, hm, ih t hf]

theorem reFind_decomp {α : Type} (m : List Char → Option (α × List Char))
    (s p : List Char) (x : α) (r : List Char) (h : reFind m s = some (p, x, r)) :
    ∃ c ch, s = p ++ c :: ch ∧ m (c :: ch) = some (x, r) := by
  induction s generalizing p with
  | nil => simp [reFind] at h
  | cons c t ih =>
    cases hm : m (c :: t) with
    | some q =>
      obtain ⟨y, rest⟩ := q
      simp [reFind, hm] at h
      obtain ⟨h1, h2, h3⟩ := h
      exact ⟨c, t, by simp [← h1], by rw [hm, h2, h3]⟩
    | none =>
      cases hf : reFind m t with
      | some q =>
        obtain ⟨p', y, rest⟩ := q
        simp [reFind, hm, hf] at h
        obtain ⟨h1, h2, h3⟩ := h
        obtain ⟨d, ch, ht, hmq⟩ := ih p' (by rw [hf, h2, h3])
        exact ⟨d, ch, by simp [← h1, ht], hmq⟩
      | none => simp [reFind, hm, hf] at h

theorem reScan_find {α : Type} (m : List Char → Option (α × List Char))
    (repl : α → List Char) (p : List Char) (x : α) (r s : List Char) (f : Nat)
    (h : reFind m s = some (p, x, r)) (hf : p.length + 1 ≤ f) :
    reScan m repl f s = p ++ repl x ++ reScan m repl (f - (p.length + 1)) r := by
  induction p generalizing s f with
  | nil =>
    cases s with
    | nil => simp [reFind] at h
    | cons c t =>
      obtain ⟨f', rfl⟩ : ∃ f', f = f' + 1 := ⟨f - 1, by omega⟩
      cases hm : m (c :: t) with
      | some q =>
        obtain ⟨y, rest⟩ := q
        simp [reFind, hm] at h
        obtain ⟨h2, h3⟩ := h
        simp [reScan, hm, h2, h3]
      | none =>
        cases hft : reFind m t with
        | some q =>
          obtain ⟨p', y, rest⟩ := q
          simp [reFind, hm, hft] at h
        | none => simp [reFind, hm, hft] at h
  | cons d p' ih =>
    cases s with
    | nil => simp [reFind] at h
    | cons c t =>
      obtain ⟨f', rfl⟩ : ∃ f', f = f' + 1 := ⟨f - 1, by omega⟩
      cases hm : m (c :: t) with
      | some q =>
        obtain ⟨y, rest⟩ := q
        simp [reFind, hm] at h
      | none =>
        cases hft : reFind m t with
        | some q =>
          obtain ⟨p'', y, rest⟩ := q
          simp [reFind, hm, hft] at h
          obtain ⟨⟨hd, hp⟩, h2, h3⟩ := h
          have ht : reFind m t = some (p', x, r) := by rw [hft, hp, h2, h3]
          have hrec := ih t f' ht (by simp at hf; omega)
          simp [reScan, hm, hrec, ← hd]
        | none => simp [reFind, hm, hft] at h

theorem reAll_none {α : Type} (m : List Char → Option (α × List Char))
    (repl : α → List Char) (s : List Char) (h : reFind m s = none) :
    reAll m repl s = s :=
  reFind_none_scan m repl s.length s h

theorem reAll_single {α : Type} (m : List Char → Option (α × List Char))
    (repl : α → List Char) (s p : List Char) (x : α) (r : List Char)
    (h : reFind m s = some (p, x, r)) (h2 : reFind m r = none) :
    reAll m repl s = p ++ repl x ++ r := by
  obtain ⟨c, ch, hs, _⟩ := reFind_decomp m s p x r h
  have hlen : p.length + 1 ≤ s.length := by
    subst hs; simp
  rw [reAll, reScan_find m repl p x r s s.length h hlen,
    reFind_none_scan m repl _ r h2]

theorem reFind_prepend {α : Type} (m : List Char → Option (α × List Char))
    (p : List Char) (c0 : Char) (ch : List Char) (x : α) (r : List Char)
    (hfail : ∀ c y, c ∈ p → m (c :: y) = none)
    (hm : m (c0 :: ch) = some (x, r)) :
    reFind m (p ++ c0 :: ch) = some (p, x, r) := by
  induction p with
  | nil => simp [reFind, hm]
  | cons d p' ih =>
    have hd : m (d :: (p' ++ c0 :: ch)) = none := hfail d _ (by simp)
    have ht := ih (fun c y hc => hfail c y (by simp [hc]))
    simp [reFind, hd, ht]

theorem dropWhile_not_nil (P : Char → Bool) (l : List Char)
    (h : ∃ c ∈ l, P c = false) : l.dropWhile P ≠ [] := by
  intro hnil
  rw [List.dropWhile_eq_nil_iff] at hnil
  obtain ⟨c, hc, hPc⟩ := h
  have := hnil c hc
  exact absurd this (by simp [hPc])

theorem rstrip_append (P : Char → Bool) (a b : List Char)
    (hb : ∃ c ∈ b, P c = false) :
    ((a ++ b).reverse.dropWhile P).reverse
      = a ++ (b.reverse.dropWhile P).reverse := by
  have hrev : ∃ c ∈ b.reverse, P c = false := by
    obtain ⟨c, hc, hPc⟩ := hb
    exact ⟨c, by simp [hc], hPc⟩
  rw [List.reverse_append]
  rw [List.dropWhile_append]
  have : (b.reverse.dropWhile P).isEmpty = false := by
    cases hbd : b.reverse.dropWhile P with
    | nil => exact absurd hbd (dropWhile_not_nil P b.reverse hrev)
    | cons x y => rfl
  simp [this]

theorem tw_append (P : Char → Bool) (t X : List Char)
    (ht : t.all P = true) (hX : ∀ c ∈ X.take 1, P c = false) :
    (t ++ X).takeWhile P = t ∧ (t ++ X).dropWhile P = X := by
  induction t with
  | nil =>
    cases X with
    | nil => simp
    | cons c y =>
      have := hX c (by simp)
      simp [List.takeWhile_cons, List.dropWhile_cons, this]
  | cons c t' ih =>
    simp at ht
    have := ih (List.all_eq_true.mpr (by simpa using ht.2))
    simp [List.takeWhile_cons, List.dropWhile_cons, ht.1, this.1, this.2]

theorem all_not_mem (P : Char → Bool) (l : List Char) (c : Char)
    (hl : l.all P = true) (hc : P c = false) : c ∉ l := by
  intro hmem
  have := List.all_eq_true.mp hl c hmem
  rw [this] at hc
  cases hc


theorem digit_isWord (c : Char) (h : isDigitChar c = true) : isWordChar c = true := by
  simp [isDigitChar] at h
  simp [isWordChar, h.1, h.2]

theorem digit_not_space (c : Char) (h : isDigitChar c = true) :
    isPatSpace c = false := by
  by_cases h1 : c = ' '
  · subst h1; simp [isDigitChar] at h
  by_cases h2 : c = '\t'
  · subst h2; simp [isDigitChar] at h
  by_cases h3 : c = '\n'
  · subst h3; simp [isDigitChar] at h
  by_cases h4 : c = '\r'
  · subst h4; simp [isDigitChar] at h
  by_cases h5 : c = '\x0c'
  · subst h5; simp [isDigitChar] at h
  simp [isPatSpace, h1, h2, h3, h4, h5]

theorem dropUpd (r : List Char) :
    dropCI updKey ('U' :: 'P' :: 'D' :: 'A' :: 'T' :: 'E' :: r) = some r := rfl

theorem classify_upd (r : List Char) :
    classify ('U' :: 'P' :: 'D' :: 'A' :: 'T' :: 'E' :: r) = some .update := rfl

theorem classify_del (r : List Char) :
    classify ('D' :: 'E' :: 'L' :: 'E' :: 'T' :: 'E' :: r) = some .delete := rfl

theorem wsThen_set (X : List Char) :
    wsThen setKey (' ' :: 'S' :: 'E' :: 'T' :: ' ' :: X) = some (' ' :: X) := rfl

theorem dropJsonb (r : List Char) :
    dropLit jsonbKey (':' :: ':' :: 'j' :: 's' :: 'o' :: 'n' :: 'b' :: r)
      = some r := rfl

theorem dropLimit (r : List Char) :
    dropLit limitKey (' ' :: 'L' :: 'I' :: 'M' :: 'I' :: 'T' :: ' ' :: r)
      = some r := rfl

theorem dropDel (r : List Char) :
    dropCI delKey ('D' :: 'E' :: 'L' :: 'E' :: 'T' :: 'E' :: r) = some r := rfl

theorem wsThen_from (r : List Char) :
    wsThen fromKey (' ' :: 'F' :: 'R' :: 'O' :: 'M' :: ' ' :: r)
      = some (' ' :: r) := rfl

/-- Shape of a table reference accepted by the `\w+[\.]?\w+` capture group,
followed by ` SET `: either a plain word run of length at least 2, or
`word.word`. -/
theorem tableThenSet_shape (t X : List Char)
    (ht : (t.all isWordChar = true ∧ 2 ≤ t.length) ∨
      ∃ w1 w2, t = w1 ++ '.' :: w2 ∧ w1 ≠ [] ∧ w2 ≠ [] ∧
        w1.all isWordChar = true ∧ w2.all isWordChar = true) :
    tableThenSet (t ++ (' ' :: 'S' :: 'E' :: 'T' :: ' ' :: X))
      = some (t, ' ' :: X) := by
  rcases ht with ⟨hall, hlen⟩ | ⟨w1, w2, rfl, hw1, hw2, ha1, ha2⟩
  · have htw := tw_append isWordChar t (' ' :: 'S' :: 'E' :: 'T' :: ' ' :: X)
      hall (by intro c hc; simp at hc; subst hc; rfl)
    obtain ⟨c1, c2, t2, rfl⟩ : ∃ c1 c2 t2, t = c1 :: c2 :: t2 := by
      cases t with
      | nil => simp at hlen
      | cons a t1 =>
        cases t1 with
        | nil => simp at hlen
        | cons b t2 => exact ⟨a, b, t2, rfl⟩
    simp only [tableThenSet, htw.1, htw.2]
    simp [wsThen_set X]
  · have e1 : (w1 ++ '.' :: w2) ++ (' ' :: 'S' :: 'E' :: 'T' :: ' ' :: X)
        = w1 ++ ('.' :: (w2 ++ (' ' :: 'S' :: 'E' :: 'T' :: ' ' :: X))) := by
      simp
    have htw1 := tw_append isWordChar w1
      ('.' :: (w2 ++ (' ' :: 'S' :: 'E' :: 'T' :: ' ' :: X))) ha1
      (by intro c hc; simp at hc; subst hc; rfl)
    have htw2 := tw_append isWordChar w2 (' ' :: 'S' :: 'E' :: 'T' :: ' ' :: X)
      ha2 (by intro c hc; simp at hc; subst hc; rfl)
    rw [e1]
    simp only [tableThenSet, htw1.1, htw1.2, htw2.1, htw2.2]
    simp [wsThen_set X, hw1, hw2]

theorem updMatchAt_shape (t X : List Char)
    (ht : (t.all isWordChar = true ∧ 2 ≤ t.length) ∨
      ∃ w1 w2, t = w1 ++ '.' :: w2 ∧ w1 ≠ [] ∧ w2 ≠ [] ∧
        w1.all isWordChar = true ∧ w2.all isWordChar = true) :
    updMatchAt ('U' :: 'P' :: 'D' :: 'A' :: 'T' :: 'E' :: ' '
        :: (t ++ (' ' :: 'S' :: 'E' :: 'T' :: ' ' :: X)))
      = some (t, ' ' :: X) := by
  have hhead : ∃ c t', t = c :: t' ∧ isWordChar c = true := by
    rcases ht with ⟨hall, hlen⟩ | ⟨w1, w2, rfl, hw1, _, ha1, _⟩
    · cases t with
      | nil => simp at hlen
      | cons c t' =>
        refine ⟨c, t', rfl, ?_⟩
        simp at hall
        simp [hall.1]
    · cases w1 with
      | nil => exact absurd rfl hw1
      | cons c w1' =>
        refine ⟨c, w1' ++ '.' :: w2, by simp, ?_⟩
        simp at ha1
        simp [ha1.1]
  obtain ⟨c, t', he, hc⟩ := hhead
  simp only [updMatchAt, dropUpd]
  have hws : wsThenWord (' ' :: (t ++ (' ' :: 'S' :: 'E' :: 'T' :: ' ' :: X)))
      = some (t ++ (' ' :: 'S' :: 'E' :: 'T' :: ' ' :: X)) := by
    rw [he]
    simp [wsThenWord, wsToWord, isPatSpace, hc]
  rw [hws]
  exact tableThenSet_shape t X ht

theorem tableEnd_shape (t Y : List Char)
    (ht : (t.all isWordChar = true ∧ 2 ≤ t.length) ∨
      ∃ w1 w2, t = w1 ++ '.' :: w2 ∧ w1 ≠ [] ∧ w2 ≠ [] ∧
        w1.all isWordChar = true ∧ w2.all isWordChar = true)
    (hY : ∀ c ∈ Y.take 1, isWordChar c = false ∧ c ≠ '.') :
    tableEnd (t ++ Y) = some (t, Y) := by
  rcases ht with ⟨hall, hlen⟩ | ⟨w1, w2, rfl, hw1, hw2, ha1, ha2⟩
  · have htw := tw_append isWordChar t Y hall (fun c hc => (hY c hc).1)
    obtain ⟨c1, c2, t2, rfl⟩ : ∃ c1 c2 t2, t = c1 :: c2 :: t2 := by
      cases t with
      | nil => simp at hlen
      | cons a t1 =>
        cases t1 with
        | nil => simp at hlen
        | cons b t2 => exact ⟨a, b, t2, rfl⟩
    simp only [tableEnd, htw.1, htw.2]
    cases Y with
    | nil => simp
    | cons y ys =>
      have hy := hY y (by simp)
      simp only [List.isEmpty_cons, Bool.false_eq_true, ite_false, if_neg]
      split
      · next r2 heq =>
        injection heq with h1 h2
        exact (hy.2 h1).elim
      · simp
  · have e1 : (w1 ++ '.' :: w2) ++ Y = w1 ++ ('.' :: (w2 ++ Y)) := by simp
    have htw1 := tw_append isWordChar w1 ('.' :: (w2 ++ Y)) ha1
      (by intro c hc; simp at hc; subst hc; rfl)
    have htw2 := tw_append isWordChar w2 Y ha2 (fun c hc => (hY c hc).1)
    rw [e1]
    simp only [tableEnd, htw1.1, htw1.2, htw2.1, htw2.2]
    simp [hw1, hw2]

theorem delMatchAt_shape (t Y : List Char)
    (ht : (t.all isWordChar = true ∧ 2 ≤ t.length) ∨
      ∃ w1 w2, t = w1 ++ '.' :: w2 ∧ w1 ≠ [] ∧ w2 ≠ [] ∧
        w1.all isWordChar = true ∧ w2.all isWordChar = true)
    (hY : ∀ c ∈ Y.take 1, isWordChar c = false ∧ c ≠ '.') :
    delMatchAt ('D' :: 'E' :: 'L' :: 'E' :: 'T' :: 'E' :: ' '
        :: 'F' :: 'R' :: 'O' :: 'M' :: ' ' :: (t ++ Y))
      = some (t, Y) := by
  have hhead : ∃ c t', t = c :: t' ∧ isWordChar c = true := by
    rcases ht with ⟨hall, hlen⟩ | ⟨w1, w2, rfl, hw1, _, ha1, _⟩
    · cases t with
      | nil => simp at hlen
      | cons c t' =>
        refine ⟨c, t', rfl, ?_⟩
        simp at hall
        simp [hall.1]
    · cases w1 with
      | nil => exact absurd rfl hw1
      | cons c w1' =>
        refine ⟨c, w1' ++ '.' :: w2, by simp, ?_⟩
        simp at ha1
        simp [ha1.1]
  obtain ⟨c, t', he, hc⟩ := hhead
  simp only [delMatchAt, dropDel, wsThen_from]
  have hws : wsThenWord (' ' :: (t ++ Y)) = some (t ++ Y) := by
    rw [he]
    simp [wsThenWord, wsToWord, isPatSpace, hc]
  rw [hws]
  exact tableEnd_shape t Y ht hY

theorem jsonbMatchAt_shape (sep Z : List Char) (d : Char)
    (hsep : sep.all (fun c => !isWordChar c) = true) (hd : isDigitChar d = true) :
    jsonbMatchAt (':' :: ':' :: 'j' :: 's' :: 'o' :: 'n' :: 'b'
        :: (sep ++ '$' :: d :: Z))
      = some (sep, Z) := by
  have e1 : sep ++ '$' :: d :: Z = (sep ++ ['$']) ++ d :: Z := by simp
  have hall : (sep ++ ['$']).all (fun c => !isWordChar c) = true := by
    simp only [List.all_append, hsep, Bool.true_and]
    rfl
  have htw := tw_append (fun c => !isWordChar c) (sep ++ ['$']) (d :: Z) hall
    (by intro c hc; simp at hc; subst hc; simp [digit_isWord _ hd])
  simp only [jsonbMatchAt, dropJsonb, e1, htw.1, htw.2]
  simp [hd, List.reverse_append]

theorem limitMatchAt_shape (a sp b r : List Char)
    (ha1 : a ≠ []) (ha2 : a.all isDigitChar = true)
    (hsp : sp.all isPatSpace = true)
    (hb1 : b ≠ []) (hb2 : b.all isDigitChar = true)
    (hr : ∀ c ∈ r.take 1, isDigitChar c = false) :
    limitMatchAt (' ' :: 'L' :: 'I' :: 'M' :: 'I' :: 'T' :: ' '
        :: (a ++ ',' :: (sp ++ (b ++ r))))
      = some ((a, b), r) := by
  have htwa := tw_append isDigitChar a (',' :: (sp ++ (b ++ r))) ha2
    (by intro c hc; simp at hc; subst hc; rfl)
  obtain ⟨d, b', rfl⟩ : ∃ d b', b = d :: b' := by
    cases b with
    | nil => exact absurd rfl hb1
    | cons d b' => exact ⟨d, b', rfl⟩
  have hdd : isDigitChar d = true := by
    simp at hb2
    simp [hb2.1]
  have htwsp := tw_append isPatSpace sp ((d :: b') ++ r) hsp
    (by intro c hc; simp at hc; subst hc; exact digit_not_space _ hdd)
  have htwb := tw_append isDigitChar (d :: b') r hb2 hr
  simp only [limitMatchAt, dropLimit, htwa.1, htwa.2, htwsp.2, htwb.1, htwb.2]
  simp [ha1]

/-! ## The claims -/

/-- C10: for the ClickHouse driver, `DoFilter` applied to any statement with
an empty bound-parameter list is the identity: the SQL text and the empty
argument list are returned unchanged with no error, with no placeholder
substitution and no UPDATE/DELETE-to-ALTER rewrite, even when the
needs-rewrite context flag is set. -/
theorem claim_C10 {α : Type} (needParsed : Bool) (sql : List Char) :
    chDoFilter needParsed sql ([] : List α) = (sql, [], none) := rfl

/-- `DoFilter` of the ClickHouse driver returns the argument list unchanged
on every control path. -/
theorem chDoFilter_args {α : Type} (flag : Bool) (sql : List Char)
    (args : List α) : (chDoFilter flag sql args).2.1 = args := by
  unfold chDoFilter
  split
  · rfl
  · split
    · rfl
    · rcases hcl : classify (trimSp (subst sql 0)) with _ | k
      · simp [hcl]
      · cases k <;> simp [hcl]

/-- C1: for a canonical statement with N placeholders (the `'?'`-free
segments `segs` joined by `'?'`) and a non-empty argument list of matching
length, `DoFilter` of both drivers replaces the i-th `'?'`, scanning left to
right, by the marker `$i`, and returns the argument sequence unchanged in
content, order and count.  The two side conditions exclude the PostgreSQL
driver's unrelated jsonb and LIMIT fix-ups from firing on the result. -/
theorem claim_C1 {α : Type} (segs : List (List Char)) (args : List α)
    (hfree : ∀ s ∈ segs, '?' ∉ s)
    (hcount : args.length + 1 = segs.length)
    (hne : args ≠ [])
    (hj : reFind jsonbMatchAt (numberMarkers segs 1) = none)
    (hl : reFind limitMatchAt (numberMarkers segs 1) = none) :
    chDoFilter false (joinQ segs) args = (numberMarkers segs 1, args, none)
      ∧ pgDoFilter (joinQ segs) args = (numberMarkers segs 1, args, none)
      ∧ (∀ (flag : Bool) (s : List Char),
          (chDoFilter flag s args).2.1 = args ∧ (pgDoFilter s args).2.1 = args) := by
  have hs : subst (joinQ segs) 0 = numberMarkers segs 1 := subst_joinQ segs 0 hfree
  refine ⟨?_, ?_, fun flag s => ⟨chDoFilter_args flag s args, rfl⟩⟩
  · obtain ⟨a, args', rfl⟩ : ∃ a args', args = a :: args' := by
      cases args with
      | nil => exact absurd rfl hne
      | cons a args' => exact ⟨a, args', rfl⟩
    simp [chDoFilter, hs]
  · simp [pgDoFilter, pgDoFilterSql, coreDoFilter, hs,
      reAll_none _ _ _ hj, reAll_none _ _ _ hl]

/-- C1 witness: a concrete two-placeholder statement evaluated through both
drivers. -/
theorem claim_C1_witness :
    chDoFilter false (joinQ ["SELECT * FROM t WHERE a=".toList, " AND b=".toList, "".toList]) [5, 7]
        = (numberMarkers ["SELECT * FROM t WHERE a=".toList, " AND b=".toList, "".toList] 1, [5, 7], none)
      ∧ pgDoFilter (joinQ ["SELECT * FROM t WHERE a=".toList, " AND b=".toList, "".toList]) [5, 7]
        = (numberMarkers ["SELECT * FROM t WHERE a=".toList, " AND b=".toList, "".toList] 1, [5, 7], none) := by
  have h := claim_C1 ["SELECT * FROM t WHERE a=".toList, " AND b=".toList, "".toList]
    [5, 7] (by decide) (by decide) (by decide) (by decide) (by decide)
  exact ⟨h.1, h.2.1⟩

/-- C4: each of `InsertIgnore`, `InsertAndGetId`, `Replace`, `Begin` and
`Transaction` on the ClickHouse driver returns its fixed named unsupported
error, the identical error value on every call, with an empty execution
trace (no network I/O, no delegation), for every argument. -/
theorem claim_C4 {α β : Type} (table : List Char) (data : α) (batch : List Nat)
    (f : β) :
    chInsertIgnore table data batch = ([], .error .insertIgnore)
      ∧ chInsertAndGetId table data batch = ([], .error .insertGetId)
      ∧ chReplace table data batch = ([], .error .replaceOp)
      ∧ chBegin = ([], .error .beginOp)
      ∧ chTransaction f = ([], .error .transactionOp) :=
  ⟨rfl, rfl, rfl, rfl, rfl⟩

/-- C5 evaluation: `ConvertValueForField` maps the zero `time.Time`, the nil
and zero-pointed `*time.Time`, the zero `gtime.Time` and the nil
`*gtime.Time` to the nil (null) binding, but maps a non-nil `*gtime.Time`
holding the zero time to the wrapped zero `time.Time` value, not to null:
the claim fails on that shape. -/
theorem claim_C5_eval :
    convertValueForField (.timeV 0) = .ok none
      ∧ convertValueForField (.timePtr none) = .ok none
      ∧ convertValueForField (.timePtr (some 0)) = .ok none
      ∧ convertValueForField (.gtimeV 0) = .ok none
      ∧ convertValueForField (.gtimePtr none) = .ok none
      ∧ convertValueForField (.gtimePtr (some 0)) = .ok (some (.timeB 0))
      ∧ (Except.ok (some (CHBound.timeB 0)) : Except (List Char) (Option CHBound))
          ≠ .ok none := by
  refine ⟨rfl, rfl, rfl, rfl, rfl, rfl, ?_⟩
  intro h
  simp at h

theorem word_not_trim (c : Char) (h : isWordChar c = true) :
    isTrimSpace c = false := by
  by_cases h1 : c = ' '
  · subst h1; simp [isWordChar] at h
  by_cases h2 : c = '\t'
  · subst h2; simp [isWordChar] at h
  by_cases h3 : c = '\n'
  · subst h3; simp [isWordChar] at h
  by_cases h4 : c = '\r'
  · subst h4; simp [isWordChar] at h
  by_cases h5 : c = '\x0c'
  · subst h5; simp [isWordChar] at h
  by_cases h6 : c = '\x0b'
  · subst h6; simp [isWordChar] at h
  simp [isTrimSpace, isPatSpace, h1, h2, h3, h4, h5, h6]

theorem table_noQ (t : List Char)
    (ht : (t.all isWordChar = true ∧ 2 ≤ t.length) ∨
      ∃ w1 w2, t = w1 ++ '.' :: w2 ∧ w1 ≠ [] ∧ w2 ≠ [] ∧
        w1.all isWordChar = true ∧ w2.all isWordChar = true) :
    '?' ∉ t := by
  rcases ht with ⟨hall, _⟩ | ⟨w1, w2, rfl, _, _, ha1, ha2⟩
  · exact all_not_mem isWordChar t '?' hall (by decide)
  · intro hmem
    rcases List.mem_append.mp hmem with h | h
    · exact all_not_mem isWordChar w1 '?' ha1 (by decide) h
    · rcases List.mem_cons.mp h with h' | h'
      · cases h'
      · exact all_not_mem isWordChar w2 '?' ha2 (by decide) h'

theorem reFind_here {α : Type} (m : List Char → Option (α × List Char))
    (c : Char) (t : List Char) (x : α) (r : List Char)
    (hm : m (c :: t) = some (x, r)) :
    reFind m (c :: t) = some ([], x, r) := by
  simp [reFind, hm]

theorem classify_trimSp_upd (z : List Char) (hz : ∃ c ∈ z, isTrimSpace c = false) :
    classify (trimSp ('U' :: 'P' :: 'D' :: 'A' :: 'T' :: 'E' :: ' ' :: z))
      = some .update := by
  rw [trimSp]
  have h1 : List.dropWhile isTrimSpace ('U' :: 'P' :: 'D' :: 'A' :: 'T' :: 'E' :: ' ' :: z)
      = 'U' :: 'P' :: 'D' :: 'A' :: 'T' :: 'E' :: ' ' :: z := by
    rw [List.dropWhile_cons_of_neg]
    decide
  have e : 'U' :: 'P' :: 'D' :: 'A' :: 'T' :: 'E' :: ' ' :: z
      = ['U', 'P', 'D', 'A', 'T', 'E', ' '] ++ z := rfl
  rw [h1, e, rstrip_append isTrimSpace _ z hz]
  exact classify_upd _

theorem classify_trimSp_del (z : List Char) (hz : ∃ c ∈ z, isTrimSpace c = false) :
    classify (trimSp ('D' :: 'E' :: 'L' :: 'E' :: 'T' :: 'E' :: ' '
        :: 'F' :: 'R' :: 'O' :: 'M' :: ' ' :: z))
      = some .delete := by
  rw [trimSp]
  have h1 : List.dropWhile isTrimSpace ('D' :: 'E' :: 'L' :: 'E' :: 'T' :: 'E' :: ' '
        :: 'F' :: 'R' :: 'O' :: 'M' :: ' ' :: z)
      = 'D' :: 'E' :: 'L' :: 'E' :: 'T' :: 'E' :: ' '
        :: 'F' :: 'R' :: 'O' :: 'M' :: ' ' :: z := by
    rw [List.dropWhile_cons_of_neg]
    decide
  have e : 'D' :: 'E' :: 'L' :: 'E' :: 'T' :: 'E' :: ' '
        :: 'F' :: 'R' :: 'O' :: 'M' :: ' ' :: z
      = ['D', 'E', 'L', 'E', 'T', 'E', ' ', 'F', 'R', 'O', 'M', ' '] ++ z := rfl
  rw [h1, e, rstrip_append isTrimSpace _ z hz]
  exact classify_del _

/-- C2 counterexample: with the needs-rewrite flag set and a non-empty
argument list, the statement `UPDATE t SET a=?` — the spec's own example,
with the single-character table reference `t` — is NOT rewritten into
`ALTER TABLE t UPDATE a=$1`: the capture group `\w+[\.]?\w+` needs at least
two word characters, so the statement passes through with only placeholder
substitution. -/
theorem claim_C2_counterexample :
    chDoFilter true "UPDATE t SET a=?".toList [0]
        = ("UPDATE t SET a=$1".toList, [0], none)
      ∧ chDoFilter true "UPDATE t SET a=?".toList [0]
        ≠ ("ALTER TABLE t UPDATE a=$1".toList, [0], none) := by
  constructor
  · decide
  · decide

/-- A replacement tail regrouping used when assembling the UPDATE rewrite. -/
theorem updTail (Z : List Char) :
    " UPDATE".toList ++ (' ' :: Z) = " UPDATE ".toList ++ Z := rfl

/-- C2 amended: with the needs-rewrite flag set and a non-empty argument
list, `DoFilter` rewrites `UPDATE t SET <rest>` into
`ALTER TABLE t UPDATE <rest>` and `DELETE FROM t <rest>` into
`ALTER TABLE t DELETE <rest>` — the table reference and the remainder
(after placeholder substitution) preserved verbatim — provided the table
reference matches the capture group `\w+[\.]?\w+`: a word run of at least
two characters, or `word.word` (a single-character table name is NOT
rewritten, see the counterexample).  Without the flag the statement is
returned with placeholder substitution only.  The `reFind … = none` side
conditions state that the remainder contains no further pattern match, and
the take-1 condition that the DELETE remainder does not extend the table
reference. -/
theorem claim_C2_amended {α : Type} (t X Y sql0 : List Char) (args : List α)
    (hne : args ≠ [])
    (ht : (t.all isWordChar = true ∧ 2 ≤ t.length) ∨
      ∃ w1 w2, t = w1 ++ '.' :: w2 ∧ w1 ≠ [] ∧ w2 ≠ [] ∧
        w1.all isWordChar = true ∧ w2.all isWordChar = true)
    (hX : reFind updMatchAt (' ' :: subst X 0) = none)
    (hY1 : ∀ c ∈ (subst Y 0).take 1, isWordChar c = false ∧ c ≠ '.')
    (hY2 : reFind delMatchAt (subst Y 0) = none) :
    chDoFilter true ("UPDATE ".toList ++ t ++ " SET ".toList ++ X) args
        = ("ALTER TABLE ".toList ++ t ++ " UPDATE ".toList ++ subst X 0, args, none)
      ∧ chDoFilter true ("DELETE FROM ".toList ++ t ++ Y) args
        = ("ALTER TABLE ".toList ++ t ++ " DELETE".toList ++ subst Y 0, args, none)
      ∧ chDoFilter false sql0 args = (subst sql0 0, args, none) := by
  obtain ⟨a0, args', rfl⟩ : ∃ a0 args', args = a0 :: args' := by
    cases args with
    | nil => exact absurd rfl hne
    | cons a0 args' => exact ⟨a0, args', rfl⟩
  have hQt : '?' ∉ t := table_noQ t ht
  refine ⟨?_, ?_, ?_⟩
  · -- UPDATE rewrite
    have e0 : "UPDATE ".toList ++ t ++ " SET ".toList ++ X
        = ['U', 'P', 'D', 'A', 'T', 'E', ' '] ++ (t ++ ([' ', 'S', 'E', 'T', ' '] ++ X)) := by
      rw [List.append_assoc, List.append_assoc]
      rfl
    have hsub : subst (['U', 'P', 'D', 'A', 'T', 'E', ' ']
          ++ (t ++ ([' ', 'S', 'E', 'T', ' '] ++ X))) 0
        = ['U', 'P', 'D', 'A', 'T', 'E', ' ']
          ++ (t ++ ([' ', 'S', 'E', 'T', ' '] ++ subst X 0)) := by
      rw [subst_append_noQ _ _ _ (by decide), subst_append_noQ _ _ _ hQt,
        subst_append_noQ _ _ _ (by decide)]
    have hcl : classify (trimSp (['U', 'P', 'D', 'A', 'T', 'E', ' ']
          ++ (t ++ ([' ', 'S', 'E', 'T', ' '] ++ subst X 0)))) = some .update := by
      refine classify_trimSp_upd _ ⟨'S', ?_, rfl⟩
      simp
    have hmatch : updMatchAt (['U', 'P', 'D', 'A', 'T', 'E', ' ']
          ++ (t ++ ([' ', 'S', 'E', 'T', ' '] ++ subst X 0)))
        = some (t, ' ' :: subst X 0) := updMatchAt_shape t (subst X 0) ht
    have hfind : reFind updMatchAt (['U', 'P', 'D', 'A', 'T', 'E', ' ']
          ++ (t ++ ([' ', 'S', 'E', 'T', ' '] ++ subst X 0)))
        = some ([], t, ' ' :: subst X 0) :=
      reFind_here updMatchAt 'U' _ _ _ hmatch
    have hall : reAll updMatchAt updRepl (['U', 'P', 'D', 'A', 'T', 'E', ' ']
          ++ (t ++ ([' ', 'S', 'E', 'T', ' '] ++ subst X 0)))
        = [] ++ updRepl t ++ (' ' :: subst X 0) :=
      reAll_single updMatchAt updRepl _ [] t (' ' :: subst X 0) hfind hX
    rw [e0]
    simp only [chDoFilter, List.isEmpty_cons, Bool.false_eq_true, if_false, hsub, hcl]
    rw [hall]
    simp [updRepl, List.append_assoc, updTail]
  · -- DELETE rewrite
    have e0 : "DELETE FROM ".toList ++ t ++ Y
        = ['D', 'E', 'L', 'E', 'T', 'E', ' ', 'F', 'R', 'O', 'M', ' '] ++ (t ++ Y) := by
      rw [List.append_assoc]
      rfl
    have hsub : subst (['D', 'E', 'L', 'E', 'T', 'E', ' ', 'F', 'R', 'O', 'M', ' ']
          ++ (t ++ Y)) 0
        = ['D', 'E', 'L', 'E', 'T', 'E', ' ', 'F', 'R', 'O', 'M', ' ']
          ++ (t ++ subst Y 0) := by
      rw [subst_append_noQ _ _ _ (by decide), subst_append_noQ _ _ _ hQt]
    have hhead : ∃ c t', t = c :: t' ∧ isWordChar c = true := by
      rcases ht with ⟨hall, hlen⟩ | ⟨w1, w2, rfl, hw1, _, ha1, _⟩
      · cases t with
        | nil => simp at hlen
        | cons c t' =>
          refine ⟨c, t', rfl, ?_⟩
          simp at hall
          simp [hall.1]
      · cases w1 with
        | nil => exact absurd rfl hw1
        | cons c w1' =>
          refine ⟨c, w1' ++ '.' :: w2, by simp, ?_⟩
          simp at ha1
          simp [ha1.1]
    obtain ⟨c, t', he, hc⟩ := hhead
    have hcl : classify (trimSp (['D', 'E', 'L', 'E', 'T', 'E', ' ', 'F', 'R', 'O', 'M', ' ']
          ++ (t ++ subst Y 0))) = some .delete := by
      refine classify_trimSp_del _ ⟨c, ?_, word_not_trim c hc⟩
      rw [he]
      simp
    have hmatch : delMatchAt (['D', 'E', 'L', 'E', 'T', 'E', ' ', 'F', 'R', 'O', 'M', ' ']
          ++ (t ++ subst Y 0))
        = some (t, subst Y 0) := delMatchAt_shape t (subst Y 0) ht hY1
    have hfind : reFind delMatchAt (['D', 'E', 'L', 'E', 'T', 'E', ' ', 'F', 'R', 'O', 'M', ' ']
          ++ (t ++ subst Y 0))
        = some ([], t, subst Y 0) :=
      reFind_here delMatchAt 'D' _ _ _ hmatch
    have hall : reAll delMatchAt delRepl (['D', 'E', 'L', 'E', 'T', 'E', ' ', 'F', 'R', 'O', 'M', ' ']
          ++ (t ++ subst Y 0))
        = [] ++ delRepl t ++ subst Y 0 :=
      reAll_single delMatchAt delRepl _ [] t (subst Y 0) hfind hY2
    rw [e0]
    simp only [chDoFilter, List.isEmpty_cons, Bool.false_eq_true, if_false, hsub, hcl]
    rw [hall]
    simp [delRepl, List.append_assoc]
  · -- without the flag: placeholder substitution only
    simp [chDoFilter]

/-- C2 amended witness: a concrete UPDATE, DELETE and flag-less statement. -/
theorem claim_C2_amended_witness :
    chDoFilter true ("UPDATE ".toList ++ "tbl".toList ++ " SET ".toList ++ "a=? WHERE b=?".toList) [3]
        = ("ALTER TABLE ".toList ++ "tbl".toList ++ " UPDATE ".toList ++ subst "a=? WHERE b=?".toList 0, [3], none)
      ∧ chDoFilter true ("DELETE FROM ".toList ++ "tbl".toList ++ " WHERE c=?".toList) [3]
        = ("ALTER TABLE ".toList ++ "tbl".toList ++ " DELETE".toList ++ subst " WHERE c=?".toList 0, [3], none)
      ∧ chDoFilter false "SELECT 1".toList [3] = (subst "SELECT 1".toList 0, [3], none) :=
  claim_C2_amended "tbl".toList "a=? WHERE b=?".toList " WHERE c=?".toList
    "SELECT 1".toList [3] (by decide) (Or.inl (by decide)) (by decide)
    (by decide) (by decide)

/-- C8: the PostgreSQL driver rewrites the pagination clause ` LIMIT a, b`
(integer literals `a` and `b`, optional whitespace after the comma) into
` LIMIT b OFFSET a`, swapping the two integers' positions and roles and
leaving the rest of the statement unchanged.  The side conditions state
that the statement holds exactly one pagination clause (found at `p`) and
that no placeholder or jsonb fix-up interferes. -/
theorem claim_C8 {α : Type} (sql p a sp b r : List Char) (args : List α)
    (_hshape : sql = p ++ " LIMIT ".toList ++ a ++ [','] ++ sp ++ b ++ r)
    (_ha1 : a ≠ []) (_ha2 : a.all isDigitChar = true)
    (_hsp : sp.all isPatSpace = true)
    (_hb1 : b ≠ []) (_hb2 : b.all isDigitChar = true)
    (hq : '?' ∉ sql)
    (hj : reFind jsonbMatchAt sql = none)
    (hfind : reFind limitMatchAt sql = some (p, (a, b), r))
    (hr2 : reFind limitMatchAt r = none) :
    pgDoFilter sql args
      = (p ++ " LIMIT ".toList ++ b ++ " OFFSET ".toList ++ a ++ r, args, none) := by
  have hs : subst sql 0 = sql := subst_noQ sql 0 hq
  have h1 : reAll jsonbMatchAt jsonbRepl sql = sql := reAll_none _ _ _ hj
  have h2 : reAll limitMatchAt limitRepl sql = p ++ limitRepl (a, b) ++ r :=
    reAll_single _ _ _ _ _ _ hfind hr2
  simp [pgDoFilter, pgDoFilterSql, coreDoFilter, hs, h1, h2, limitRepl,
    List.append_assoc]

/-- C8 witness: `SELECT * FROM t LIMIT 10, 5` becomes
`SELECT * FROM t LIMIT 5 OFFSET 10`. -/
theorem claim_C8_witness :
    pgDoFilter "SELECT * FROM t LIMIT 10, 5".toList [4]
      = ("SELECT * FROM t".toList ++ " LIMIT ".toList ++ "5".toList
          ++ " OFFSET ".toList ++ "10".toList ++ [], [4], none) :=
  claim_C8 "SELECT * FROM t LIMIT 10, 5".toList "SELECT * FROM t".toList
    "10".toList " ".toList "5".toList [] [4] (by decide) (by decide) (by decide)
    (by decide) (by decide) (by decide) (by decide) (by decide) (by decide)
    (by decide)

theorem jsonb_headFail (c : Char) (y : List Char) (h : c ≠ ':') :
    jsonbMatchAt (c :: y) = none := by
  have hd : dropLit jsonbKey (c :: y) = none := by
    show (if c = ':' then dropLit [':', 'j', 's', 'o', 'n', 'b'] y else none) = none
    rw [if_neg h]
  simp [jsonbMatchAt, hd]

/-- C7 counterexample: in `a::jsonb ? ?` with one bound parameter (the first
`'?'` is the jsonb operator, the second the placeholder), the operator is
restored but the following placeholder keeps the marker `$2` assigned while
the operator was still counted — it does not name the 1st (only) bound
parameter, which the claim's offset-correctness would require (`$1`). -/
theorem claim_C7_counterexample :
    pgDoFilter "a::jsonb ? ?".toList [0]
        = ("a::jsonb ? $2".toList, [0], none)
      ∧ "a::jsonb ? $2".toList ≠ "a::jsonb ? $1".toList
      ∧ ([0] : List Nat).length = 1 := by
  refine ⟨by decide, by decide, rfl⟩

/-- C7 amended: a jsonb operator `'?'` adjacent to a `::jsonb` cast (only
non-word characters between) is detected after placeholder numbering and
restored to the operator character, and the scan resumes past it; but later
placeholders keep the numbering that counted the operator, so the k-th
placeholder after the operator bears the marker `$(k+1)` (`subst post 1`
numbers them from 2), while the argument list is returned unchanged —
binding offsets match only when no placeholder follows the operator. -/
theorem claim_C7_amended {α : Type} (pre sep post : List Char) (args : List α)
    (hp1 : ':' ∉ pre) (hp2 : '?' ∉ pre)
    (hsep1 : sep.all (fun c => !isWordChar c) = true) (hsep2 : '?' ∉ sep)
    (h2 : reFind jsonbMatchAt (subst post 1) = none)
    (h3 : reFind limitMatchAt
        (pre ++ "::jsonb".toList ++ sep ++ '?' :: subst post 1) = none) :
    pgDoFilter (pre ++ "::jsonb".toList ++ sep ++ '?' :: post) args
      = (pre ++ "::jsonb".toList ++ sep ++ '?' :: subst post 1, args, none) := by
  have e0 : pre ++ "::jsonb".toList ++ sep ++ '?' :: post
      = pre ++ ([':', ':', 'j', 's', 'o', 'n', 'b'] ++ (sep ++ ('?' :: post))) := by
    rw [List.append_assoc, List.append_assoc]
    rfl
  have hsub : subst (pre ++ ([':', ':', 'j', 's', 'o', 'n', 'b'] ++ (sep ++ ('?' :: post)))) 0
      = pre ++ ([':', ':', 'j', 's', 'o', 'n', 'b'] ++ (sep ++ ('$' :: '1' :: subst post 1))) := by
    rw [subst_append_noQ _ _ _ hp2, subst_append_noQ _ _ _ (by decide),
      subst_append_noQ _ _ _ hsep2, subst_cons_q]
    rfl
  have hm : jsonbMatchAt (':' :: ':' :: 'j' :: 's' :: 'o' :: 'n' :: 'b'
        :: (sep ++ '$' :: '1' :: subst post 1))
      = some (sep, subst post 1) :=
    jsonbMatchAt_shape sep (subst post 1) '1' hsep1 (by decide)
  have hfind : reFind jsonbMatchAt
        (pre ++ (':' :: ':' :: 'j' :: 's' :: 'o' :: 'n' :: 'b'
          :: (sep ++ '$' :: '1' :: subst post 1)))
      = some (pre, sep, subst post 1) :=
    reFind_prepend jsonbMatchAt pre ':'
      (':' :: 'j' :: 's' :: 'o' :: 'n' :: 'b' :: (sep ++ '$' :: '1' :: subst post 1))
      sep (subst post 1)
      (fun c y hc => jsonb_headFail c y (by rintro rfl; exact hp1 hc)) hm
  have hallj : reAll jsonbMatchAt jsonbRepl
        (pre ++ ([':', ':', 'j', 's', 'o', 'n', 'b'] ++ (sep ++ ('$' :: '1' :: subst post 1))))
      = pre ++ jsonbRepl sep ++ subst post 1 :=
    reAll_single jsonbMatchAt jsonbRepl _ pre sep (subst post 1) hfind h2
  have h3' : reFind limitMatchAt (pre ++ jsonbRepl sep ++ subst post 1) = none := by
    have e1 : pre ++ jsonbRepl sep ++ subst post 1
        = pre ++ "::jsonb".toList ++ sep ++ '?' :: subst post 1 := by
      simp [jsonbRepl, jsonbKey, List.append_assoc]
    rw [e1]
    exact h3
  have halll : reAll limitMatchAt limitRepl (pre ++ jsonbRepl sep ++ subst post 1)
      = pre ++ jsonbRepl sep ++ subst post 1 := reAll_none _ _ _ h3'
  rw [e0]
  simp only [pgDoFilter, pgDoFilterSql, coreDoFilter, hsub, hallj, halll]
  simp [jsonbRepl, jsonbKey, List.append_assoc]

/-- C7 amended witness: `a::jsonb ? ?` with a trailing placeholder. -/
theorem claim_C7_amended_witness :
    pgDoFilter ("a".toList ++ "::jsonb".toList ++ " ".toList ++ '?' :: " AND x=?".toList) [9, 8]
      = ("a".toList ++ "::jsonb".toList ++ " ".toList ++ '?' :: subst " AND x=?".toList 1,
          [9, 8], none) :=
  claim_C7_amended "a".toList " ".toList " AND x=?".toList [9, 8]
    (by decide) (by decide) (by decide) (by decide) (by decide) (by decide)

theorem chExecLoop_ok (o : CHInsertOracle) (keys : List (List Char))
    (rows : List (List (List Char × Nat))) (i : Nat)
    (hok : ∀ j, j < rows.length → o.execErr (i + j) = none) :
    chExecLoop o keys rows i
      = ((rows.enumFrom i).map (fun p => .exec p.1 (chParams keys p.2)), none) := by
  induction rows generalizing i with
  | nil => rfl
  | cons row rest ih =>
    have h0 : o.execErr i = none := by
      have := hok 0 (by simp)
      simpa using this
    have ih' := ih (i + 1) (by
      intro j hj
      have := hok (j + 1) (by simp; omega)
      have e : i + (j + 1) = i + 1 + j := by omega
      rw [e] at this
      exact this)
    simp [chExecLoop, h0, ih', List.enumFrom]

theorem chExecLoop_fail (o : CHInsertOracle) (keys : List (List Char))
    (rows : List (List (List Char × Nat))) (i k : Nat) (e : List Char)
    (hk : k < rows.length)
    (hok : ∀ j, j < k → o.execErr (i + j) = none)
    (he : o.execErr (i + k) = some e) :
    chExecLoop o keys rows i
      = (((rows.take (k + 1)).enumFrom i).map
          (fun p => .exec p.1 (chParams keys p.2)), some e) := by
  induction rows generalizing i k with
  | nil => simp at hk
  | cons row rest ih =>
    cases k with
    | zero =>
      have he' : o.execErr i = some e := by simpa using he
      simp [chExecLoop, he', List.enumFrom]
    | succ k' =>
      have h0 : o.execErr i = none := by
        have := hok 0 (by omega)
        simpa using this
      have ih' := ih (i + 1) k' (by simpa using hk)
        (by
          intro j hj
          have := hok (j + 1) (by omega)
          have ee : i + (j + 1) = i + 1 + j := by omega
          rw [ee] at this
          exact this)
        (by
          have ee : i + (k' + 1) = i + 1 + k' := by omega
          rw [ee] at he
          exact he)
      simp [chExecLoop, h0, ih', List.enumFrom]

/-- C3: in the ClickHouse driver's emulated batch insert, exactly one insert
statement is prepared inside a freshly begun transaction and executed once
per row of the list, in list order.  If every row succeeds the transaction
is committed; if row k fails with error e (every earlier row succeeding),
that error is returned, no row after k is executed, and the transaction is
rolled back (never committed), so zero rows are committed. -/
theorem claim_C3 (o : CHInsertOracle) (table : List Char)
    (rows : List (List (List Char × Nat)))
    (hb : o.beginErr = none) (hp : o.prepareErr = none) :
    ((∀ j, j < rows.length → o.execErr j = none) →
      chDoInsert o table rows
        = (.beginTx :: .prepare table (chKeys rows)
            :: ((rows.enumFrom 0).map
                (fun p => .exec p.1 (chParams (chKeys rows) p.2)) ++ [.commit]),
            none))
    ∧ (∀ k e, k < rows.length →
        (∀ j, j < k → o.execErr j = none) → o.execErr k = some e →
        chDoInsert o table rows
          = (.beginTx :: .prepare table (chKeys rows)
              :: (((rows.take (k + 1)).enumFrom 0).map
                  (fun p => .exec p.1 (chParams (chKeys rows) p.2)) ++ [.rollback]),
              some e)) := by
  constructor
  · intro hok
    have hl := chExecLoop_ok o (chKeys rows) rows 0 (by
      intro j hj
      simpa using hok j hj)
    simp [chDoInsert, hb, hp, hl]
  · intro k e hk hok he
    have hl := chExecLoop_fail o (chKeys rows) rows 0 k e hk
      (by intro j hj; simpa using hok j hj) (by simpa using he)
    simp [chDoInsert, hb, hp, hl]

/-- C3 witness: three rows, row index 1 failing: two executions, rollback,
row 1's error returned. -/
theorem claim_C3_witness :
    chDoInsert
        ⟨none, none, fun i => if i = 1 then some "row2 failed".toList else none⟩
        "t".toList
        [[("a".toList, 10)], [("a".toList, 20)], [("a".toList, 30)]]
      = (.beginTx
          :: .prepare "t".toList
              (chKeys [[("a".toList, 10)], [("a".toList, 20)], [("a".toList, 30)]])
          :: ((([[("a".toList, 10)], [("a".toList, 20)], [("a".toList, 30)]].take 2).enumFrom 0).map
              (fun p => .exec p.1
                (chParams
                  (chKeys [[("a".toList, 10)], [("a".toList, 20)], [("a".toList, 30)]])
                  p.2)) ++ [.rollback]),
          some "row2 failed".toList) :=
  (claim_C3
      ⟨none, none, fun i => if i = 1 then some "row2 failed".toList else none⟩
      "t".toList
      [[("a".toList, 10)], [("a".toList, 20)], [("a".toList, 30)]]
      rfl rfl).2 1 "row2 failed".toList (by decide)
    (by
      intro j hj
      have : j = 0 := by omega
      subst this
      rfl)
    rfl

theorem pgDoFilterSql_id (s : List Char) (hq : '?' ∉ s)
    (hj : reFind jsonbMatchAt s = none)
    (hl : reFind limitMatchAt s = none) : pgDoFilterSql s = s := by
  simp [pgDoFilterSql, subst_noQ s 0 hq, reAll_none _ _ _ hj, reAll_none _ _ _ hl]

/-- C6 counterexample: for a primary key of declared type `numeric` — a
numeric type whose name does not contain the substring `int` — `DoExec`
returns the "LastInsertId is not supported" result instead of carrying the
returned key value (7) as LastInsertId, refuting the claim's
numeric/non-numeric dichotomy: the code tests `strings.Contains(type, "int")`. -/
theorem claim_C6_counterexample :
    pgDoExec (some ⟨"id".toList, "numeric".toList⟩)
        "INSERT INTO t(a) VALUES(1)".toList (.ok [[("id".toList, some 7)]])
      = .ok (.executed "INSERT INTO t(a) VALUES(1) RETURNING id".toList
          ⟨1, 0, some (notSupportedMsg "numeric".toList)⟩)
    ∧ pgDoExec (some ⟨"id".toList, "numeric".toList⟩)
        "INSERT INTO t(a) VALUES(1)".toList (.ok [[("id".toList, some 7)]])
      ≠ .ok (.executed "INSERT INTO t(a) VALUES(1) RETURNING id".toList
          ⟨1, 7, none⟩) := by
  refine ⟨by rfl, ?_⟩
  intro h
  rw [show pgDoExec (some ⟨"id".toList, "numeric".toList⟩)
      "INSERT INTO t(a) VALUES(1)".toList (.ok [[("id".toList, some 7)]])
    = .ok (.executed "INSERT INTO t(a) VALUES(1) RETURNING id".toList
        ⟨1, 0, some (notSupportedMsg "numeric".toList)⟩) from rfl] at h
  simp [PgResult.mk.injEq] at h

/-- C6 amended: for the default-option insert path with a known primary key
(name `nm`, declared type `ty`) and an `INSERT INTO` statement, `DoExec`
appends ` RETURNING nm` to the statement; when rows come back, if `ty` does
not contain the substring `int` the call still succeeds and the result
carries the row count together with the "not supported" LastInsertId error;
if `ty` contains `int` and the last row's key is non-null, the result
carries that key value as LastInsertId with the row count.  (The claim's
"non-numeric"/"numeric" dichotomy is amended to the code's substring test:
`numeric`, for one, is numeric but contains no `int`.)  The filter side
conditions keep the statement free of placeholder/jsonb/LIMIT rewrites. -/
theorem claim_C6_amended (nm ty sql : List Char)
    (records : List (List (List Char × Option Int))) (v : Int)
    (hnm : nm ≠ [])
    (hins : containsLit "INSERT INTO".toList sql = true)
    (hq : '?' ∉ sql ++ " RETURNING ".toList ++ nm)
    (hj : reFind jsonbMatchAt (sql ++ " RETURNING ".toList ++ nm) = none)
    (hl : reFind limitMatchAt (sql ++ " RETURNING ".toList ++ nm) = none)
    (hrec : records ≠ []) :
    (containsLit "int".toList ty = false →
      pgDoExec (some ⟨nm, ty⟩) sql (.ok records)
        = .ok (.executed (sql ++ " RETURNING ".toList ++ nm)
            ⟨(records.length : Int), 0, some (notSupportedMsg ty)⟩))
    ∧ (containsLit "int".toList ty = true →
        pgRecordGet nm (records.getLastD []) = some v →
        pgDoExec (some ⟨nm, ty⟩) sql (.ok records)
          = .ok (.executed (sql ++ " RETURNING ".toList ++ nm)
              ⟨(records.length : Int), v, none⟩)) := by
  obtain ⟨c, nm', rfl⟩ : ∃ c nm', nm = c :: nm' := by
    cases nm with
    | nil => exact absurd rfl hnm
    | cons c nm' => exact ⟨c, nm', rfl⟩
  have hid := pgDoFilterSql_id (sql ++ " RETURNING ".toList ++ (c :: nm')) hq hj hl
  have hlen : 0 < records.length := List.length_pos.mpr hrec
  simp at hins hid
  constructor
  · intro hty
    simp at hty
    simp [pgDoExec, hins, formatSqlBeforeExecuting, hid, hlen, hty]
  · intro hty hv
    simp at hty
    rw [List.getLastD_eq_getLast?] at hv
    simp [pgDoExec, hins, formatSqlBeforeExecuting, hid, hlen, hty, hv]

/-- C6 amended witness: a `numeric` primary key yields the not-supported
LastInsertId with the right row count; an `int8` primary key yields the
returned key value. -/
theorem claim_C6_amended_witness :
    pgDoExec (some ⟨"id".toList, "numeric".toList⟩)
        "INSERT INTO t(a) VALUES(2)".toList (.ok [[("id".toList, some 5)]])
      = .ok (.executed ("INSERT INTO t(a) VALUES(2)".toList ++ " RETURNING ".toList ++ "id".toList)
          ⟨(1 : Int), 0, some (notSupportedMsg "numeric".toList)⟩)
    ∧ pgDoExec (some ⟨"id".toList, "int8".toList⟩)
        "INSERT INTO t(a) VALUES(2)".toList (.ok [[("id".toList, some 42)]])
      = .ok (.executed ("INSERT INTO t(a) VALUES(2)".toList ++ " RETURNING ".toList ++ "id".toList)
          ⟨(1 : Int), 42, none⟩) :=
  ⟨(claim_C6_amended "id".toList "numeric".toList "INSERT INTO t(a) VALUES(2)".toList
      [[("id".toList, some 5)]] 0 (by decide) (by decide) (by decide) (by decide)
      (by decide) (by decide)).1 (by decide),
    (claim_C6_amended "id".toList "int8".toList "INSERT INTO t(a) VALUES(2)".toList
      [[("id".toList, some 42)]] 42 (by decide) (by decide) (by decide) (by decide)
      (by decide) (by decide)).2 (by decide) (by decide)⟩

/-- C9 counterexample: a catalog whose ordinal numbering starts at 5 (first
row's position nonzero).  The code subtracts one, yielding indices `[4, 5]`;
subtracting the detected base (5) to reach a zero-based scheme, as the claim
states, would yield `[0, 1]`. -/
theorem claim_C9_counterexample :
    (chTableFields [⟨"a".toList, 5, [], [], "Int32".toList⟩,
        ⟨"b".toList, 6, [], [], "Int32".toList⟩]).map (fun e => e.2.index)
      = [4, 5]
    ∧ ([4, 5] : List Int) ≠ [0, 1] := by
  refine ⟨rfl, by decide⟩

/-- C9 amended: `TableFields` subtracts exactly one from every returned
ordinal position when the first returned row's position is nonzero (which is
a zero-based scheme only when the catalog numbers consecutively from one),
and returns positions unchanged when the first row's position is zero. -/
theorem claim_C9_amended (r0 : CHColRow) (rest : List CHColRow) :
    (r0.position ≠ 0 →
      chTableFields (r0 :: rest) = (r0 :: rest).map (fun r =>
        (r.name, ⟨r.position - 1, r.name, r.defaultExpression, r.comment,
          (chUnwrapNullable r.ftype).2, (chUnwrapNullable r.ftype).1⟩)))
    ∧ (r0.position = 0 →
      chTableFields (r0 :: rest) = (r0 :: rest).map (fun r =>
        (r.name, ⟨r.position, r.name, r.defaultExpression, r.comment,
          (chUnwrapNullable r.ftype).2, (chUnwrapNullable r.ftype).1⟩))) := by
  constructor
  · intro h
    simp [chTableFields, chFieldOfRow, h]
  · intro h
    simp [chTableFields, chFieldOfRow, h]

/-- C9 amended witness: one-based catalog positions 1 and 2 (with a
`Nullable` column type) come back as zero-based 0 and 1. -/
theorem claim_C9_amended_witness :
    chTableFields [⟨"a".toList, 1, [], [], "Nullable(Int32)".toList⟩,
        ⟨"b".toList, 2, [], [], "String".toList⟩]
      = ([⟨"a".toList, 1, [], [], "Nullable(Int32)".toList⟩,
          ⟨"b".toList, 2, [], [], "String".toList⟩] : List CHColRow).map (fun r =>
        (r.name, ⟨r.position - 1, r.name, r.defaultExpression, r.comment,
          (chUnwrapNullable r.ftype).2, (chUnwrapNullable r.ftype).1⟩)) :=
  (claim_C9_amended ⟨"a".toList, 1, [], [], "Nullable(Int32)".toList⟩
      [⟨"b".toList, 2, [], [], "String".toList⟩]).1 (by decide)
